import Mathlib

/-- Unicode code points with the White_Space property; model of Rust
`char::is_whitespace`, which `str::trim` and the whitespace test in
`is_empty_or_invisible` use. -/
def rustIsWhitespace (c : Char) : Bool :=
  c == ' ' || c == '\t' || c == '\n' || c == '\u000B' || c == '\u000C' || c == '\r' ||
  c == '\u0085' || c == '\u00A0' || c == '\u1680' ||
  (0x2000 ≤ c.toNat && c.toNat ≤ 0x200A) ||
  c == '\u2028' || c == '\u2029' || c == '\u202F' || c == '\u205F' || c == '\u3000'

/-- Model of Rust `str::trim`: remove leading and trailing Unicode
whitespace from a character list. -/
def trimChars (l : List Char) : List Char :=
  ((l.dropWhile rustIsWhitespace).reverse.dropWhile rustIsWhitespace).reverse

/-- `str::trim` lifted to `String`. -/
def rustTrim (s : String) : String :=
  String.mk (trimChars s.data)

/-- UTF-8 byte length of a character list (Rust `str::len`). -/
def byteLen : List Char → Nat
  | [] => 0
  | c :: cs => c.utf8Size + byteLen cs

/-- Drop the first `n` BYTES of a character list; `none` when `n` is out of
bounds or not on a character boundary (models the right half of `str::get`). -/
def dropBytes : List Char → Nat → Option (List Char)
  | l, 0 => some l
  | [], _ + 1 => none
  | c :: cs, n + 1 =>
    if c.utf8Size ≤ n + 1 then dropBytes cs (n + 1 - c.utf8Size) else none

/-- Take the first `n` BYTES of a character list; `none` when `n` is out of
bounds or not on a character boundary. -/
def takeBytes : List Char → Nat → Option (List Char)
  | _, 0 => some []
  | [], _ + 1 => none
  | c :: cs, n + 1 =>
    if c.utf8Size ≤ n + 1 then (takeBytes cs (n + 1 - c.utf8Size)).map (c :: ·) else none

/-- Model of Rust `s.get(a..b)`: the characters whose bytes span `[a, b)`,
or `none` when the range is invalid. -/
def sliceBytes (l : List Char) (a b : Nat) : Option (List Char) :=
  if a ≤ b then (dropBytes l a).bind (fun u => takeBytes u (b - a)) else none

/-- Configuration for table of contents generation (struct `TocConfig`);
both fields are byte counts. -/
structure TocConfig where
  toc_budget : Nat
  full_content_threshold : Nat
deriving DecidableEq

/-- `impl Default for TocConfig`. -/
def TocConfig.default : TocConfig :=
  { toc_budget := 4000, full_content_threshold := 8000 }

/-- A heading extracted from markdown (struct `Heading`). -/
structure Heading where
  level : Nat
  line_number : Nat
  text : String
deriving DecidableEq

/-- The six heading levels of pulldown-cmark's `HeadingLevel`. -/
inductive HeadingLevel where
  | h1 | h2 | h3 | h4 | h5 | h6
deriving DecidableEq

/-- The `match heading.level` conversion to a numeric level in
`extract_headings`. -/
def levelNum : HeadingLevel → Nat
  | .h1 => 1
  | .h2 => 2
  | .h3 => 3
  | .h4 => 4
  | .h5 => 5
  | .h6 => 6

/-- A half-open byte range attached to a parser event (Rust `Range<usize>`). -/
structure MRange where
  start : Nat
  stop : Nat
deriving DecidableEq

/-- The pulldown-cmark events `extract_headings` distinguishes; every other
event of the stream is `other`. -/
inductive MDEvent where
  | start_heading (level : HeadingLevel)
  | start_link
  | text (t : String)
  | code (t : String)
  | end_link
  | end_heading
  | other
deriving DecidableEq

/-- Per-open-link state of the extraction state machine (struct `LinkState`). -/
structure LinkState where
  start : Nat
  text_content : String

/-- Per-open-heading state of the extraction state machine
(struct `HeadingState`). -/
structure HeadingState where
  level : HeadingLevel
  start : Nat
  line_number : Nat
  empty_link_ranges : List MRange
  current_link : Option LinkState

/-- Whole state of the extraction loop: emitted headings plus the mutable
locals `current_heading`, `current_line`, `last_pos`. -/
structure ExtractState where
  headings : List Heading
  current_heading : Option HeadingState
  current_line : Nat
  last_pos : Nat

/-- `is_empty_or_invisible`: true when every character is whitespace or one
of the four invisible code points U+200B, U+FEFF, U+200C, U+200D. -/
def is_empty_or_invisible (text : String) : Bool :=
  text.data.all (fun c =>
    rustIsWhitespace c || c == '\u200B' || c == '\uFEFF' || c == '\u200C' || c == '\u200D')

/-- The text-building loop at heading-end: copy `full_text` while skipping
the recorded empty-link byte ranges (absolute offsets, made relative to
`hstart` by saturating subtraction); invalid ranges are skipped. -/
def buildHeadingText (full_text : List Char) (hstart : Nat) (ranges : List MRange) : List Char :=
  let final := ranges.foldl
    (fun (acc : List Char × Nat) r =>
      let relative_start := r.start - hstart
      let relative_end := r.stop - hstart
      if relative_end ≤ relative_start ∨ byteLen full_text < relative_end then acc
      else
        let acc1 :=
          if acc.2 < relative_start then
            match sliceBytes full_text acc.2 relative_start with
            | some sl => acc.1 ++ sl
            | none => acc.1
          else acc.1
        (acc1, relative_end))
    ([], 0)
  if final.2 < byteLen full_text then
    match dropBytes full_text final.2 with
    | some sl => final.1 ++ sl
    | none => final.1
  else final.1

/-- The incremental line tracking done at the top of the event loop: count
newlines in `markdown[last_pos..range.start]` when the range moved forward,
and advance `last_pos` monotonically. -/
def advance (markdown : String) (s : ExtractState) (r : MRange) : ExtractState :=
  let s1 :=
    if s.last_pos < r.start then
      { s with current_line :=
          s.current_line + ((sliceBytes markdown.data s.last_pos r.start).getD []).count '\n' }
    else s
  { s1 with last_pos := s1.last_pos.max r.start }

/-- The `match event` body of the extraction loop (after line tracking). -/
def stepCore (markdown : String) (s : ExtractState) (ev : MDEvent) (r : MRange) : ExtractState :=
  match ev with
  | .start_heading level =>
    { s with
      current_heading := some
        { level := level, start := r.start, line_number := s.current_line,
          empty_link_ranges := [], current_link := none } }
  | .start_link =>
    match s.current_heading with
    | none => s
    | some h =>
      { s with
        current_heading := some
          { h with current_link := some { start := r.start, text_content := "" } } }
  | .text t | .code t =>
    match s.current_heading with
    | none => s
    | some h =>
      match h.current_link with
      | none => s
      | some link =>
        { s with
          current_heading := some
            { h with current_link := some { link with text_content := link.text_content ++ t } } }
  | .end_link =>
    match s.current_heading with
    | none => s
    | some h =>
      match h.current_link with
      | none => s
      | some link =>
        if is_empty_or_invisible link.text_content then
          { s with
            current_heading := some
              { h with current_link := none,
                       empty_link_ranges := h.empty_link_ranges ++ [⟨link.start, r.stop⟩] } }
        else
          { s with current_heading := some { h with current_link := none } }
  | .end_heading =>
    match s.current_heading with
    | none => s
    | some h =>
      let full_text := (sliceBytes markdown.data h.start r.stop).getD []
      let text := trimChars (buildHeadingText full_text h.start h.empty_link_ranges)
      if text.isEmpty then { s with current_heading := none }
      else
        { s with
          current_heading := none,
          headings := s.headings ++
            [{ level := levelNum h.level, line_number := h.line_number,
               text := String.mk text }] }
  | .other => s

/-- One iteration of the `for (event, range)` loop of `extract_headings`. -/
def extractStep (markdown : String) (s : ExtractState) (ev : MDEvent × MRange) : ExtractState :=
  stepCore markdown (advance markdown s ev.2) ev.1 ev.2

/-- `extract_headings`, parameterised by the event stream the external
parser produces for `markdown`. -/
def extract_headings (markdown : String) (events : List (MDEvent × MRange)) : List Heading :=
  (events.foldl (extractStep markdown)
    { headings := [], current_heading := none, current_line := 1, last_pos := 0 }).headings

/-- Fuel-based decimal digits of a natural number, most significant first;
`digitsAux (n+1) n` is the digit list of `n`. -/
def digitsAux : Nat → Nat → List Char
  | 0, _ => []
  | f + 1, n =>
    if n < 10 then [Nat.digitChar n]
    else digitsAux f (n / 10) ++ [Nat.digitChar (n % 10)]

/-- Decimal representation of a natural number, model of Rust
`format!` on a `usize`. -/
def reprDigits (n : Nat) : List Char :=
  digitsAux (n + 1) n

/-- `render_toc`: filter to `level ≤ max_level`; when non-empty, right-align
each line number to `max(3, width of the last line number)`, then the arrow
separator and the literal heading text, joined by single newlines. -/
def render_toc (headings : List Heading) (max_level : Nat) : String :=
  let filtered := headings.filter (fun h => decide (h.level ≤ max_level))
  if filtered.isEmpty then ""
  else
    let max_line_num := (filtered.getLast?.getD { level := 0, line_number := 0, text := "" }).line_number
    let width := (reprDigits max_line_num).length.max 3
    String.intercalate "\n" (filtered.map (fun h =>
      String.mk (List.replicate (width - (reprDigits h.line_number).length) ' '
        ++ reprDigits h.line_number) ++ "→" ++ h.text))

/-- Body of the `for level in 1..=max_level` loop of `find_optimal_level`:
record `(level, rendered)` when the rendering is non-empty and fits the
budget, overwriting any previous record. -/
def selStep (headings : List Heading) (budget : Nat)
    (best : Option (Nat × String)) (level : Nat) : Option (Nat × String) :=
  let rendered := render_toc headings level
  if rendered.isEmpty then best
  else if rendered.utf8ByteSize ≤ budget then some (level, rendered)
  else best

/-- `find_optimal_level`: scan every level from 1 to the maximum level
present and keep the last fit. -/
def find_optimal_level (headings : List Heading) (budget : Nat) : Option (Nat × String) :=
  if headings.isEmpty then none
  else
    let max_level := ((headings.map (fun h => h.level)).max?).getD 1
    (List.range' 1 max_level).foldl (selStep headings budget) none

/-- `generate_toc`, parameterised by the external parser `parse`: threshold
gate, extraction, level selection, final emptiness check. -/
def generate_toc (parse : String → List (MDEvent × MRange)) (markdown : String)
    (total_bytes : Nat) (config : TocConfig) : Option String :=
  if total_bytes < config.full_content_threshold then none
  else
    let headings := extract_headings markdown (parse markdown)
    if headings.isEmpty then none
    else
      match find_optimal_level headings config.toc_budget with
      | none => none
      | some (_, toc) => if toc.isEmpty then none else some toc

/-- Decimal digit count of a natural number, as the specification words it. -/
def digitCount (n : Nat) : Nat :=
  Nat.log 10 n + 1

/-- A level fits, in the words of §4.2: its rendering is non-empty and its
byte length is within the budget. -/
def fitsLevel (headings : List Heading) (budget : Nat) (level : Nat) : Bool :=
  !(render_toc headings level).isEmpty &&
    decide ((render_toc headings level).utf8ByteSize ≤ budget)

/-- Level selection as §4.2 words it: scan levels 1..max_level, record every
fitting level overwriting the previous record, return the last record — the
deepest fitting level — or `none`. -/
def findOptimalLevelSpec (headings : List Heading) (budget : Nat) : Option (Nat × String) :=
  if headings.isEmpty then none
  else
    let max_level := ((headings.map (fun h => h.level)).max?).getD 1
    match ((List.range' 1 max_level).filter (fitsLevel headings budget)).getLast? with
    | none => none
    | some level => some (level, render_toc headings level)

/-- The renderer as §4.3 words it: filter to `level ≤ max_level`, empty
string when no heading survives, otherwise one line per heading with the
line number right-aligned to `max(3, decimal digit count of the last
heading's line number)`, an arrow separator and the literal text, joined by
single newlines. -/
def renderTocSpec (headings : List Heading) (max_level : Nat) : String :=
  let filtered := headings.filter (fun h => decide (h.level ≤ max_level))
  match filtered.getLast? with
  | none => ""
  | some lastH =>
    let width := Nat.max 3 (digitCount lastH.line_number)
    String.intercalate "\n" (filtered.map (fun h =>
      String.mk (List.replicate (width - (reprDigits h.line_number).length) ' '
        ++ reprDigits h.line_number) ++ "→" ++ h.text))

/-- The selector loop truncated to the first `n` levels. -/
def selScan (headings : List Heading) (budget : Nat) (n : Nat) : Option (Nat × String) :=
  (List.range' 1 n).foldl (selStep headings budget) none

/-- The invariant C8 asserts of every emitted heading. -/
def headingTextOk (h : Heading) : Prop :=
  rustTrim h.text = h.text ∧ h.text ≠ ""

/-- Line tracking with the direct (panicking) byte-slice made explicit:
`none` when `markdown[last_pos..range.start]` would panic. -/
def advanceChecked (markdown : String) (s : ExtractState) (r : MRange) :
    Option ExtractState :=
  if s.last_pos < r.start then
    match sliceBytes markdown.data s.last_pos r.start with
    | none => none
    | some cs =>
      some { s with current_line := s.current_line + cs.count '\n',
                    last_pos := s.last_pos.max r.start }
  else some { s with last_pos := s.last_pos.max r.start }

/-- One checked iteration of the extraction loop. -/
def stepChecked (markdown : String) (s : ExtractState) (ev : MDEvent × MRange) :
    Option ExtractState :=
  (advanceChecked markdown s ev.2).map (fun s1 => stepCore markdown s1 ev.1 ev.2)

/-- Checked `extract_headings`. -/
def extractHeadingsChecked (markdown : String) (events : List (MDEvent × MRange)) :
    Option (List Heading) :=
  (events.foldlM (stepChecked markdown)
    { headings := [], current_heading := none, current_line := 1, last_pos := 0 }).map
    (fun s => s.headings)

/-- Checked `render_toc`: the `filtered.last().unwrap()` panic is `none`. -/
def renderTocChecked (headings : List Heading) (max_level : Nat) : Option String :=
  let filtered := headings.filter (fun h => decide (h.level ≤ max_level))
  if filtered.isEmpty then some ""
  else
    match filtered.getLast? with
    | none => none
    | some lastH =>
      let width := (reprDigits lastH.line_number).length.max 3
      some (String.intercalate "\n" (filtered.map (fun h =>
        String.mk (List.replicate (width - (reprDigits h.line_number).length) ' '
          ++ reprDigits h.line_number) ++ "→" ++ h.text)))

/-- Checked loop body of `find_optimal_level`. -/
def selStepChecked (headings : List Heading) (budget : Nat)
    (best : Option (Nat × String)) (level : Nat) : Option (Option (Nat × String)) :=
  match renderTocChecked headings level with
  | none => none
  | some rendered =>
    some (if rendered.isEmpty then best
      else if rendered.utf8ByteSize ≤ budget then some (level, rendered) else best)

/-- Checked `find_optimal_level`. -/
def findOptimalLevelChecked (headings : List Heading) (budget : Nat) :
    Option (Option (Nat × String)) :=
  if headings.isEmpty then some none
  else
    (List.range' 1 (((headings.map (fun h => h.level)).max?).getD 1)).foldlM
      (selStepChecked headings budget) none

/-- Checked `generate_toc`: `some r` means the run finishes without panicking
and returns `r`. -/
def generateTocChecked (parse : String → List (MDEvent × MRange)) (markdown : String)
    (total_bytes : Nat) (config : TocConfig) : Option (Option String) :=
  if total_bytes < config.full_content_threshold then some none
  else
    match extractHeadingsChecked markdown (parse markdown) with
    | none => none
    | some headings =>
      if headings.isEmpty then some none
      else
        match findOptimalLevelChecked headings config.toc_budget with
        | none => none
        | some none => some none
        | some (some (_, toc)) => some (if toc.isEmpty then none else some toc)

/-! ### Lemmas and claim theorems -/

theorem byteLen_append (x y : List Char) : byteLen (x ++ y) = byteLen x + byteLen y := by
  induction x with
  | nil => simp [byteLen]
  | cons c cs ih => simp [byteLen, ih]; omega

theorem byteLen_eq_zero {l : List Char} : byteLen l = 0 ↔ l = [] := by
  cases l with
  | nil => simp [byteLen]
  | cons c cs =>
    simp [byteLen]
    have := c.utf8Size_pos
    omega

theorem byteLen_pos {l : List Char} (h : l ≠ []) : 0 < byteLen l := by
  rcases Nat.eq_zero_or_pos (byteLen l) with h0 | h0
  · exact absurd (byteLen_eq_zero.mp h0) h
  · exact h0

theorem dropBytes_zero (l : List Char) : dropBytes l 0 = some l := by
  cases l <;> rfl

theorem dropBytes_append (x y : List Char) : dropBytes (x ++ y) (byteLen x) = some y := by
  induction x with
  | nil => simp [byteLen, dropBytes]
  | cons c cs ih =>
    have hpos := c.utf8Size_pos
    have hlen : byteLen (c :: cs) = byteLen cs + c.utf8Size := by simp [byteLen]; omega
    rcases Nat.exists_eq_add_of_lt (show 0 < byteLen (c :: cs) by rw [hlen]; omega) with ⟨m, hm⟩
    rw [List.cons_append]
    rw [show byteLen (c :: cs) = m + 1 by omega]
    rw [dropBytes]
    rw [if_pos (by omega)]
    rw [show m + 1 - c.utf8Size = byteLen cs by omega]
    exact ih

theorem takeBytes_append (x y : List Char) : takeBytes (x ++ y) (byteLen x) = some x := by
  induction x with
  | nil => simp [byteLen, takeBytes]
  | cons c cs ih =>
    have hpos := c.utf8Size_pos
    have hlen : byteLen (c :: cs) = byteLen cs + c.utf8Size := by simp [byteLen]; omega
    rcases Nat.exists_eq_add_of_lt (show 0 < byteLen (c :: cs) by rw [hlen]; omega) with ⟨m, hm⟩
    rw [List.cons_append]
    rw [show byteLen (c :: cs) = m + 1 by omega]
    rw [takeBytes]
    rw [if_pos (by omega)]
    rw [show m + 1 - c.utf8Size = byteLen cs by omega]
    rw [ih]
    rfl

theorem sliceBytes_prefix (x y : List Char) : sliceBytes (x ++ y) 0 (byteLen x) = some x := by
  simp [sliceBytes, dropBytes_zero, takeBytes_append]

theorem sliceBytes_middle (x y z : List Char) :
    sliceBytes (x ++ y ++ z) (byteLen x) (byteLen x + byteLen y) = some y := by
  rw [sliceBytes, if_pos (Nat.le_add_right _ _)]
  rw [List.append_assoc, dropBytes_append]
  simp [Nat.add_sub_cancel_left, takeBytes_append]

theorem dropBytes_dropBytes {l u : List Char} {a : Nat} (c : Nat)
    (h : dropBytes l a = some u) : dropBytes l (a + c) = dropBytes u c := by
  induction l generalizing a u with
  | nil =>
    cases a with
    | zero => simp [dropBytes] at h; subst h; simp
    | succ m => simp [dropBytes] at h
  | cons ch cs ih =>
    cases a with
    | zero => simp [dropBytes] at h; subst h; simp
    | succ m =>
      rw [dropBytes] at h
      by_cases hc : ch.utf8Size ≤ m + 1
      · rw [if_pos hc] at h
        cases c with
        | zero =>
          rw [Nat.add_zero, dropBytes_zero, dropBytes, if_pos hc, h]
        | succ k =>
          have h1 : m + 1 + (k + 1) = (m + k + 1) + 1 := by omega
          rw [h1, dropBytes, if_pos (by omega)]
          rw [show m + k + 1 + 1 - ch.utf8Size = (m + 1 - ch.utf8Size) + (k + 1) by omega]
          exact ih h
      · rw [if_neg hc] at h; exact absurd h (by simp)

theorem takeBytes_of_dropBytes {l u : List Char} {n : Nat}
    (h : dropBytes l n = some u) : ∃ t, takeBytes l n = some t ∧ l = t ++ u ∧ byteLen t = n := by
  induction l generalizing n u with
  | nil =>
    cases n with
    | zero => simp [dropBytes] at h; subst h; exact ⟨[], rfl, rfl, rfl⟩
    | succ m => simp [dropBytes] at h
  | cons ch cs ih =>
    cases n with
    | zero => simp [dropBytes] at h; subst h; exact ⟨[], rfl, rfl, rfl⟩
    | succ m =>
      rw [dropBytes] at h
      by_cases hc : ch.utf8Size ≤ m + 1
      · rw [if_pos hc] at h
        rcases ih h with ⟨t, ht, hl, hb⟩
        refine ⟨ch :: t, ?_, by simp [hl], by simp [byteLen, hb]; omega⟩
        rw [takeBytes, if_pos hc, ht]
        rfl
      · rw [if_neg hc] at h; exact absurd h (by simp)

theorem sliceBytes_isSome {l : List Char} {a b : Nat} (hab : a ≤ b)
    (ha : (dropBytes l a).isSome) (hb : (dropBytes l b).isSome) :
    (sliceBytes l a b).isSome := by
  rcases Option.isSome_iff_exists.mp ha with ⟨u, hu⟩
  rw [sliceBytes, if_pos hab, hu]
  have hb2 : dropBytes l (a + (b - a)) = dropBytes u (b - a) := dropBytes_dropBytes _ hu
  rw [Nat.add_sub_cancel' hab] at hb2
  rw [hb2] at hb
  rcases Option.isSome_iff_exists.mp hb with ⟨v, hv⟩
  rcases takeBytes_of_dropBytes hv with ⟨t, ht, _, _⟩
  simp [ht]

theorem head_dropWhile_not {p : Char → Bool} {l : List Char} {c : Char}
    (h : (l.dropWhile p).head? = some c) : p c = false := by
  induction l with
  | nil => simp [List.dropWhile] at h
  | cons a t ih =>
    rw [List.dropWhile_cons] at h
    by_cases hp : p a
    · rw [if_pos hp] at h; exact ih h
    · rw [if_neg hp] at h
      simp at h
      subst h
      exact Bool.not_eq_true _ ▸ (by simpa using hp)

theorem dropWhile_eq_self_of_head {p : Char → Bool} {l : List Char}
    (h : ∀ c, l.head? = some c → p c = false) : l.dropWhile p = l := by
  cases l with
  | nil => rfl
  | cons a t =>
    rw [List.dropWhile_cons, if_neg]
    simp [h a rfl]

theorem getLast?_dropWhile {p : Char → Bool} {l : List Char}
    (h : l.dropWhile p ≠ []) : (l.dropWhile p).getLast? = l.getLast? := by
  induction l with
  | nil => simp [List.dropWhile] at h
  | cons a t ih =>
    rw [List.dropWhile_cons] at h ⊢
    by_cases hp : p a
    · rw [if_pos hp] at h ⊢
      have ht : t ≠ [] := by
        intro he; subst he; simp [List.dropWhile] at h
      rw [ih h]
      cases t with
      | nil => exact absurd rfl ht
      | cons b u => simp [List.getLast?_cons_cons]
    · rw [if_neg hp]

theorem trimChars_idem (l : List Char) : trimChars (trimChars l) = trimChars l := by
  unfold trimChars
  set m := l.dropWhile rustIsWhitespace with hm
  set d := m.reverse.dropWhile rustIsWhitespace with hd
  by_cases hdn : d = []
  · simp [hdn, List.dropWhile]
  · have h1 : d.reverse.dropWhile rustIsWhitespace = d.reverse := by
      apply dropWhile_eq_self_of_head
      intro c hc
      rw [List.head?_reverse] at hc
      rw [getLast?_dropWhile hdn, List.getLast?_reverse] at hc
      exact head_dropWhile_not (hm ▸ hc)
    rw [h1, List.reverse_reverse, hd]
    congr 1
    apply dropWhile_eq_self_of_head
    intro c hc
    exact head_dropWhile_not (hd ▸ hc)

theorem digitsAux_length {f n : Nat} (h : n < f) : (digitsAux f n).length = digitCount n := by
  induction f generalizing n with
  | zero => omega
  | succ g ih =>
    rw [digitsAux]
    by_cases h10 : n < 10
    · rw [if_pos h10]
      simp [digitCount, Nat.log_eq_zero_iff.mpr (Or.inl h10)]
    · rw [if_neg h10]
      have hn0 : 0 < n := by omega
      have hdiv : n / 10 < g := by
        have := Nat.div_lt_self hn0 (by norm_num : (1:Nat) < 10)
        omega
      rw [List.length_append, ih hdiv]
      simp only [List.length_cons, List.length_nil, digitCount]
      have hlogpos : 0 < Nat.log 10 n := Nat.log_pos (by norm_num) (by omega)
      have := Nat.log_div_base 10 n
      omega

theorem reprDigits_length (n : Nat) : (reprDigits n).length = digitCount n :=
  digitsAux_length (Nat.lt_succ_self n)

theorem selScan_succ (headings : List Heading) (budget n : Nat) :
    selScan headings budget (n + 1) =
      selStep headings budget (selScan headings budget n) (1 + n) := by
  unfold selScan
  rw [List.range'_concat, List.foldl_append]
  simp

theorem selScan_some {headings : List Heading} {budget n : Nat} {level : Nat} {r : String}
    (h : selScan headings budget n = some (level, r)) :
    r = render_toc headings level ∧ r.isEmpty = false ∧
      r.utf8ByteSize ≤ budget ∧ 1 ≤ level ∧ level ≤ n := by
  induction n generalizing level r with
  | zero => simp [selScan, List.range'] at h
  | succ m ih =>
    rw [selScan_succ, selStep] at h
    by_cases he : (render_toc headings (1 + m)).isEmpty
    · simp only [he, if_true] at h
      rcases ih h with ⟨h1, h2, h3, h4, h5⟩
      exact ⟨h1, h2, h3, h4, by omega⟩
    · simp only [he, if_false] at h
      by_cases hb : (render_toc headings (1 + m)).utf8ByteSize ≤ budget
      · rw [if_pos hb] at h
        injection h with h
        injection h with hL hR
        subst hL; subst hR
        refine ⟨rfl, by simpa using he, hb, by omega, by omega⟩
      · rw [if_neg hb] at h
        rcases ih h with ⟨h1, h2, h3, h4, h5⟩
        exact ⟨h1, h2, h3, h4, by omega⟩

theorem selScan_budget_mono {headings : List Heading} {b1 b2 n : Nat}
    {l1 l2 : Nat} {r1 r2 : String}
    (hb : b1 ≤ b2)
    (h1 : selScan headings b1 n = some (l1, r1))
    (h2 : selScan headings b2 n = some (l2, r2)) : l1 ≤ l2 := by
  induction n generalizing l1 l2 r1 r2 with
  | zero => simp [selScan, List.range'] at h1
  | succ m ih =>
    rw [selScan_succ, selStep] at h1 h2
    by_cases he : (render_toc headings (1 + m)).isEmpty
    · simp only [he, if_true] at h1 h2
      exact ih h1 h2
    · simp only [he, if_false] at h1 h2
      by_cases hb2 : (render_toc headings (1 + m)).utf8ByteSize ≤ b2
      · rw [if_pos hb2] at h2
        injection h2 with h2
        injection h2 with hL _
        subst hL
        by_cases hb1 : (render_toc headings (1 + m)).utf8ByteSize ≤ b1
        · rw [if_pos hb1] at h1
          injection h1 with h1
          injection h1 with hL1 _
          omega
        · rw [if_neg hb1] at h1
          have := (selScan_some h1).2.2.2.2
          omega
      · have hb1 : ¬ (render_toc headings (1 + m)).utf8ByteSize ≤ b1 := by omega
        rw [if_neg hb1] at h1
        rw [if_neg hb2] at h2
        exact ih h1 h2

theorem selScan_eq_filter (headings : List Heading) (budget n : Nat) :
    selScan headings budget n =
      match ((List.range' 1 n).filter (fitsLevel headings budget)).getLast? with
      | none => none
      | some level => some (level, render_toc headings level) := by
  induction n with
  | zero => simp [selScan, List.range']
  | succ m ih =>
    rw [selScan_succ, List.range'_concat]
    simp only [Nat.mul_one, List.filter_append]
    by_cases hf : fitsLevel headings budget (1 + m)
    · have : List.filter (fitsLevel headings budget) [1 + 1 * m] = [1 + m] := by
        simp only [List.filter, Nat.one_mul, hf]
      rw [this, List.getLast?_concat]
      rw [selStep]
      rcases Bool.and_eq_true .. |>.mp hf with ⟨hne, hleb⟩
      rw [if_neg (by simpa using hne), if_pos (by simpa using hleb)]
    · have : List.filter (fitsLevel headings budget) [1 + 1 * m] = [] := by
        simp only [List.filter, Nat.one_mul]
        rw [Bool.not_eq_true] at hf
        simp [hf]
      rw [this, List.append_nil, ← ih]
      rw [selStep]
      by_cases he : (render_toc headings (1 + m)).isEmpty
      · rw [if_pos he]
      · rw [if_neg he]
        have hleb : ¬ (render_toc headings (1 + m)).utf8ByteSize ≤ budget := by
          intro hc
          apply hf
          simp [fitsLevel, hc, Bool.not_eq_true, ← String.isEmpty_iff] at he ⊢
          simpa using he
        rw [if_neg hleb]

theorem find_optimal_level_as_selScan (headings : List Heading) (budget : Nat) :
    find_optimal_level headings budget =
      if headings.isEmpty then none
      else selScan headings budget (((headings.map (fun h => h.level)).max?).getD 1) := rfl

/-- C1: for every markdown string, size hint and config, whenever
`generate_toc` returns `some toc` the byte length of `toc` is at most
`config.toc_budget`. -/
theorem generate_toc_within_budget
    (parse : String → List (MDEvent × MRange)) (markdown : String) (total_bytes : Nat)
    (config : TocConfig) (toc : String)
    (h : generate_toc parse markdown total_bytes config = some toc) :
    toc.utf8ByteSize ≤ config.toc_budget := by
  unfold generate_toc at h
  by_cases hgate : total_bytes < config.full_content_threshold
  · rw [if_pos hgate] at h; exact absurd h (by simp)
  · rw [if_neg hgate] at h
    cases hemp : (extract_headings markdown (parse markdown)).isEmpty with
    | true => simp only [hemp, if_true] at h; exact absurd h (by simp)
    | false =>
      simp only [hemp, if_false] at h
      cases hopt : find_optimal_level (extract_headings markdown (parse markdown))
          config.toc_budget with
      | none => rw [hopt] at h; exact absurd h (by simp)
      | some p =>
        obtain ⟨level, r⟩ := p
        rw [hopt] at h
        cases hre : r.isEmpty with
        | true => simp [hre] at h
        | false =>
          simp only [Bool.false_eq_true, if_false, hre] at h
          injection h with h
          subst h
          rw [find_optimal_level_as_selScan, if_neg (by simp [hemp])] at hopt
          exact (selScan_some hopt).2.2.1

/-- C1 witness: a concrete run of `generate_toc` that returns `some`,
with the budget bound instantiated. -/
theorem generate_toc_within_budget_witness :
    ("  1→# T" : String).utf8ByteSize ≤ (TocConfig.default).toc_budget :=
  generate_toc_within_budget
    (fun _ => [(.start_heading .h1, ⟨0, 3⟩), (.end_heading, ⟨0, 3⟩)])
    "# T" 9000 TocConfig.default "  1→# T" (by decide)

/-- C2: command below the size threshold: `generate_toc` returns `none` for
every string and every parser, with no heading extraction consulted. -/
theorem generate_toc_below_threshold_none
    (parse : String → List (MDEvent × MRange)) (markdown : String) (total_bytes : Nat)
    (config : TocConfig) (h : total_bytes < config.full_content_threshold) :
    generate_toc parse markdown total_bytes config = none := by
  unfold generate_toc
  rw [if_pos h]

/-- C2 witness. -/
theorem generate_toc_below_threshold_none_witness :
    generate_toc (fun _ => [(.start_heading .h1, ⟨0, 3⟩), (.end_heading, ⟨0, 3⟩)])
      "# T" 0 TocConfig.default = none :=
  generate_toc_below_threshold_none _ _ _ _ (by decide)

/-- C3: `find_optimal_level` returns `none` on an empty heading list and
otherwise scans every level 1..max_level, recording every fitting level and
returning the last record — the deepest level whose own rendering fits — or
`none` when no level fits. -/
theorem find_optimal_level_eq_spec (headings : List Heading) (budget : Nat) :
    find_optimal_level headings budget = findOptimalLevelSpec headings budget := by
  rw [find_optimal_level_as_selScan]
  unfold findOptimalLevelSpec
  by_cases he : headings.isEmpty
  · rw [if_pos he, if_pos he]
  · rw [if_neg he, if_neg he]
    exact selScan_eq_filter headings budget _

/-- C4: the rendered ToC size is not monotone in the level cutoff: for this
heading list the level-2 rendering is strictly smaller than the level-1
rendering, because the deeper list ends on a 1-digit line number and needs a
much narrower alignment column. -/
theorem render_toc_size_not_monotone :
    ∃ (headings : List Heading) (l1 l2 : Nat), l1 < l2 ∧
      (render_toc headings l2).utf8ByteSize < (render_toc headings l1).utf8ByteSize :=
  ⟨[⟨1, 1, "# a"⟩, ⟨1, 1, "# a"⟩, ⟨1, 1, "# a"⟩, ⟨1, 1000000000, "# a"⟩, ⟨2, 1, "## b"⟩],
   1, 2, by decide, by decide⟩

/-- C5: weak monotonicity of the selected level in the budget: for a fixed
heading list, enlarging the byte budget never selects a shallower level. -/
theorem find_optimal_level_budget_mono
    (headings : List Heading) (b1 b2 l1 l2 : Nat) (r1 r2 : String)
    (hb : b1 ≤ b2)
    (h1 : find_optimal_level headings b1 = some (l1, r1))
    (h2 : find_optimal_level headings b2 = some (l2, r2)) : l1 ≤ l2 := by
  rw [find_optimal_level_as_selScan] at h1 h2
  by_cases he : headings.isEmpty
  · rw [if_pos he] at h1; exact absurd h1 (by simp)
  · rw [if_neg he] at h1 h2
    exact selScan_budget_mono hb h1 h2

/-- C5 witness: a concrete heading list where budget 10 selects level 1 and
budget 30 selects level 2. -/
theorem find_optimal_level_budget_mono_witness :
    find_optimal_level [⟨1, 1, "# a"⟩, ⟨2, 2, "## bb"⟩] 10 = some (1, "  1→# a") ∧
    find_optimal_level [⟨1, 1, "# a"⟩, ⟨2, 2, "## bb"⟩] 30 = some (2, "  1→# a\n  2→## bb") ∧
    (1 : Nat) ≤ 2 :=
  ⟨by decide, by decide,
   find_optimal_level_budget_mono [⟨1, 1, "# a"⟩, ⟨2, 2, "## bb"⟩] 10 30 1 2
     "  1→# a" "  1→# a\n  2→## bb" (by decide) (by decide) (by decide)⟩

/-- C10: the size hint only feeds the threshold gate: any two hints at or
above the threshold give byte-identical results. -/
theorem generate_toc_size_hint_irrelevant
    (parse : String → List (MDEvent × MRange)) (markdown : String)
    (config : TocConfig) (n1 n2 : Nat)
    (h1 : config.full_content_threshold ≤ n1) (h2 : config.full_content_threshold ≤ n2) :
    generate_toc parse markdown n1 config = generate_toc parse markdown n2 config := by
  unfold generate_toc
  rw [if_neg (Nat.not_lt.mpr h1), if_neg (Nat.not_lt.mpr h2)]

/-- C10 witness. -/
theorem generate_toc_size_hint_irrelevant_witness :
    generate_toc (fun _ => [(.start_heading .h1, ⟨0, 3⟩), (.end_heading, ⟨0, 3⟩)])
        "# T" 8000 TocConfig.default =
      generate_toc (fun _ => [(.start_heading .h1, ⟨0, 3⟩), (.end_heading, ⟨0, 3⟩)])
        "# T" 123456 TocConfig.default :=
  generate_toc_size_hint_irrelevant _ _ _ _ _ (by decide) (by decide)

/-- C6: the renderer agrees with its specification: filter to
`level ≤ max_level`, empty string when nothing survives, otherwise one line
per surviving heading — the line number right-aligned to
`max(3, decimal digit count of the last heading's line number)`, an arrow
separator, the literal heading text — joined by single newlines with no
trailing newline. -/
theorem render_toc_eq_spec (headings : List Heading) (max_level : Nat) :
    render_toc headings max_level = renderTocSpec headings max_level := by
  unfold render_toc renderTocSpec
  cases hl : (headings.filter (fun h => decide (h.level ≤ max_level))).getLast? with
  | none =>
    have he : headings.filter (fun h => decide (h.level ≤ max_level)) = [] :=
      List.getLast?_eq_none_iff.mp hl
    simp [he]
  | some lastH =>
    have hne : headings.filter (fun h => decide (h.level ≤ max_level)) ≠ [] := by
      intro hc; rw [hc] at hl; simp at hl
    have hie : (headings.filter (fun h => decide (h.level ≤ max_level))).isEmpty = false :=
      List.isEmpty_eq_false.mpr hne
    simp only [hie, Bool.false_eq_true, if_false, hl, Option.getD_some]
    simp only [reprDigits_length, Nat.max_comm]

theorem string_mk_ne_empty {l : List Char} (h : l ≠ []) : String.mk l ≠ "" := by
  intro hc
  exact h (by simpa using congrArg String.data hc)

theorem advance_headings (markdown : String) (s : ExtractState) (r : MRange) :
    (advance markdown s r).headings = s.headings := by
  unfold advance
  by_cases hc : s.last_pos < r.start <;> simp [hc]

theorem stepCore_headings_ok (markdown : String) (s : ExtractState) (ev : MDEvent) (r : MRange)
    (hs : ∀ h ∈ s.headings, headingTextOk h) :
    ∀ h ∈ (stepCore markdown s ev r).headings, headingTextOk h := by
  cases ev with
  | start_heading level => simpa [stepCore] using hs
  | start_link =>
    cases hch : s.current_heading with
    | none => simpa [stepCore, hch] using hs
    | some hd => simpa [stepCore, hch] using hs
  | text t =>
    cases hch : s.current_heading with
    | none => simpa [stepCore, hch] using hs
    | some hd =>
      cases hcl : hd.current_link with
      | none => simpa [stepCore, hch, hcl] using hs
      | some link => simpa [stepCore, hch, hcl] using hs
  | code t =>
    cases hch : s.current_heading with
    | none => simpa [stepCore, hch] using hs
    | some hd =>
      cases hcl : hd.current_link with
      | none => simpa [stepCore, hch, hcl] using hs
      | some link => simpa [stepCore, hch, hcl] using hs
  | end_link =>
    cases hch : s.current_heading with
    | none => simpa [stepCore, hch] using hs
    | some hd =>
      cases hcl : hd.current_link with
      | none => simpa [stepCore, hch, hcl] using hs
      | some link =>
        by_cases hinv : is_empty_or_invisible link.text_content <;>
          simpa [stepCore, hch, hcl, hinv] using hs
  | end_heading =>
    cases hch : s.current_heading with
    | none => simpa [stepCore, hch] using hs
    | some hd =>
      by_cases hte :
          (trimChars (buildHeadingText ((sliceBytes markdown.data hd.start r.stop).getD [])
            hd.start hd.empty_link_ranges)).isEmpty
      · simpa [stepCore, hch, hte] using hs
      · intro h hmem
        simp only [stepCore, hch, hte, Bool.false_eq_true, if_false,
          List.mem_append, List.mem_singleton] at hmem
        rcases hmem with hmem | hmem
        · exact hs h hmem
        · subst hmem
          constructor
          · show rustTrim (String.mk _) = _
            unfold rustTrim
            simp [trimChars_idem]
          · apply string_mk_ne_empty
            simpa [List.isEmpty_eq_false] using hte
  | other => simpa [stepCore] using hs

theorem foldl_extractStep_ok (markdown : String) (events : List (MDEvent × MRange)) :
    ∀ s : ExtractState, (∀ h ∈ s.headings, headingTextOk h) →
      ∀ h ∈ (events.foldl (extractStep markdown) s).headings, headingTextOk h := by
  induction events with
  | nil => intro s hs; simpa using hs
  | cons e rest ih =>
    intro s hs
    rw [List.foldl_cons]
    apply ih
    unfold extractStep
    apply stepCore_headings_ok
    rw [advance_headings]
    exact hs

/-- C8: every heading emitted by `extract_headings` has text that survives
trimming intact and is non-empty: headings whose reconstructed text trims to
nothing are dropped. -/
theorem extract_headings_text_trimmed_nonempty
    (markdown : String) (events : List (MDEvent × MRange)) (h : Heading)
    (hmem : h ∈ extract_headings markdown events) :
    rustTrim h.text = h.text ∧ h.text ≠ "" := by
  exact foldl_extractStep_ok markdown events _ (by simp) h hmem

/-- C8 witness: the heading extracted from a concrete stream satisfies the
invariant. -/
theorem extract_headings_text_trimmed_nonempty_witness :
    rustTrim "## Ti" = "## Ti" ∧ ("## Ti" : String) ≠ "" :=
  extract_headings_text_trimmed_nonempty "## Ti"
    [(.start_heading .h2, ⟨0, 5⟩), (.end_heading, ⟨0, 5⟩)]
    ⟨2, 1, "## Ti"⟩ (by decide)

theorem buildHeadingText_nil (full : List Char) (hstart : Nat) :
    buildHeadingText full hstart [] = full := by
  by_cases h : 0 < byteLen full
  · simp [buildHeadingText, dropBytes_zero, h]
  · have hf : full = [] := byteLen_eq_zero.mp (by omega)
    subst hf
    simp [buildHeadingText, byteLen]

theorem buildHeadingText_single (hs : Nat) (before link after : List Char) (hlink : link ≠ []) :
    buildHeadingText (before ++ link ++ after) hs
      [⟨hs + byteLen before, hs + byteLen before + byteLen link⟩] = before ++ after := by
  have hlpos : 0 < byteLen link := byteLen_pos hlink
  have hfull : byteLen (before ++ link ++ after)
      = byteLen before + byteLen link + byteLen after := by
    rw [byteLen_append, byteLen_append]
  have hsliceA : sliceBytes (before ++ link ++ after) 0 (byteLen before) = some before := by
    rw [List.append_assoc]
    exact sliceBytes_prefix before (link ++ after)
  have hsliceB : dropBytes (before ++ link ++ after) (byteLen before + byteLen link)
      = some after := by
    rw [← byteLen_append]
    exact dropBytes_append (before ++ link) after
  have hacc : (if 0 < byteLen before then before else ([] : List Char)) = before := by
    by_cases hb : before = []
    · subst hb; simp
    · rw [if_pos (byteLen_pos hb)]
  unfold buildHeadingText
  simp only [List.foldl_cons, List.foldl_nil, Nat.add_assoc, Nat.add_sub_cancel_left]
  have hg : ¬(byteLen before + byteLen link ≤ byteLen before ∨
      byteLen (before ++ link ++ after) < byteLen before + byteLen link) := by omega
  rw [if_neg hg]
  simp only [hsliceA, List.nil_append]
  rw [hacc]
  simp only [hsliceB]
  by_cases ha : after = []
  · subst ha
    have hba : byteLen ([] : List Char) = 0 := rfl
    rw [if_neg (by omega)]
    simp
  · have hba : 0 < byteLen after := byteLen_pos ha
    rw [if_pos (by omega)]

theorem string_empty_append (s : String) : "" ++ s = s := by
  cases s; rfl

theorem advance_eq (markdown : String) (s : ExtractState) (r : MRange) :
    ∃ c, advance markdown s r =
      { headings := s.headings, current_heading := s.current_heading,
        current_line := c, last_pos := s.last_pos.max r.start } := by
  unfold advance
  by_cases h : s.last_pos < r.start
  · exact ⟨_, by rw [if_pos h]⟩
  · exact ⟨s.current_line, by rw [if_neg h]⟩

/-- C7: link dichotomy in heading extraction: for an arbitrary heading whose
source splits as `before ++ link ++ after` inside the document, with the
link's accumulated visible text `tStr`, the extracted heading text is the
trimmed source with the link spliced out when `tStr` is empty or invisible,
and the trimmed full source — bracket and parenthesis syntax of the link
included — when `tStr` has visible content. -/
theorem extract_headings_invisible_link_dichotomy
    (lvl : HeadingLevel) (tStr : String) (pre0 before link after post0 : List Char)
    (hlink : link ≠ []) :
    (extract_headings (String.mk (pre0 ++ (before ++ link ++ after) ++ post0))
        [(.start_heading lvl,
           ⟨byteLen pre0, byteLen pre0 + byteLen (before ++ link ++ after)⟩),
         (.start_link,
           ⟨byteLen pre0 + byteLen before, byteLen pre0 + byteLen before + byteLen link⟩),
         (.text tStr,
           ⟨byteLen pre0 + byteLen before, byteLen pre0 + byteLen before + byteLen link⟩),
         (.end_link,
           ⟨byteLen pre0 + byteLen before, byteLen pre0 + byteLen before + byteLen link⟩),
         (.end_heading,
           ⟨byteLen pre0, byteLen pre0 + byteLen (before ++ link ++ after)⟩)]).map
      (fun h => h.text) =
      (if is_empty_or_invisible tStr then
         if (trimChars (before ++ after)).isEmpty then []
         else [String.mk (trimChars (before ++ after))]
       else
         if (trimChars (before ++ link ++ after)).isEmpty then []
         else [String.mk (trimChars (before ++ link ++ after))]) := by
  have hmax1 : Nat.max (byteLen pre0) (byteLen pre0 + byteLen before)
      = byteLen pre0 + byteLen before := Nat.max_eq_right (Nat.le_add_right _ _)
  have hslice : sliceBytes (String.mk (pre0 ++ (before ++ link ++ after) ++ post0)).data
      (byteLen pre0) (byteLen pre0 + byteLen (before ++ link ++ after))
      = some (before ++ link ++ after) :=
    sliceBytes_middle pre0 (before ++ link ++ after) post0
  unfold extract_headings
  rw [List.foldl_cons, List.foldl_cons, List.foldl_cons, List.foldl_cons, List.foldl_cons,
    List.foldl_nil]
  obtain ⟨c1, h1⟩ := advance_eq (String.mk (pre0 ++ (before ++ link ++ after) ++ post0))
    ⟨[], none, 1, 0⟩
    ⟨byteLen pre0, byteLen pre0 + byteLen (before ++ link ++ after)⟩
  have s1 : extractStep (String.mk (pre0 ++ (before ++ link ++ after) ++ post0))
      ⟨[], none, 1, 0⟩
      (.start_heading lvl, ⟨byteLen pre0, byteLen pre0 + byteLen (before ++ link ++ after)⟩)
      = ⟨[], some ⟨lvl, byteLen pre0, c1, [], none⟩, c1, byteLen pre0⟩ := by
    unfold extractStep
    rw [h1]
    simp [stepCore]
  rw [s1]
  obtain ⟨c2, h2⟩ := advance_eq (String.mk (pre0 ++ (before ++ link ++ after) ++ post0))
    ⟨[], some ⟨lvl, byteLen pre0, c1, [], none⟩, c1, byteLen pre0⟩
    ⟨byteLen pre0 + byteLen before, byteLen pre0 + byteLen before + byteLen link⟩
  have s2 : extractStep (String.mk (pre0 ++ (before ++ link ++ after) ++ post0))
      ⟨[], some ⟨lvl, byteLen pre0, c1, [], none⟩, c1, byteLen pre0⟩
      (.start_link,
        ⟨byteLen pre0 + byteLen before, byteLen pre0 + byteLen before + byteLen link⟩)
      = ⟨[], some ⟨lvl, byteLen pre0, c1, [],
          some ⟨byteLen pre0 + byteLen before, ""⟩⟩, c2,
          byteLen pre0 + byteLen before⟩ := by
    unfold extractStep
    rw [h2]
    simp [stepCore, hmax1]
  rw [s2]
  obtain ⟨c3, h3⟩ := advance_eq (String.mk (pre0 ++ (before ++ link ++ after) ++ post0))
    ⟨[], some ⟨lvl, byteLen pre0, c1, [], some ⟨byteLen pre0 + byteLen before, ""⟩⟩, c2,
      byteLen pre0 + byteLen before⟩
    ⟨byteLen pre0 + byteLen before, byteLen pre0 + byteLen before + byteLen link⟩
  have s3 : extractStep (String.mk (pre0 ++ (before ++ link ++ after) ++ post0))
      ⟨[], some ⟨lvl, byteLen pre0, c1, [], some ⟨byteLen pre0 + byteLen before, ""⟩⟩, c2,
        byteLen pre0 + byteLen before⟩
      (.text tStr,
        ⟨byteLen pre0 + byteLen before, byteLen pre0 + byteLen before + byteLen link⟩)
      = ⟨[], some ⟨lvl, byteLen pre0, c1, [],
          some ⟨byteLen pre0 + byteLen before, tStr⟩⟩, c3,
          byteLen pre0 + byteLen before⟩ := by
    unfold extractStep
    rw [h3]
    simp [stepCore, string_empty_append]
  rw [s3]
  obtain ⟨c4, h4⟩ := advance_eq (String.mk (pre0 ++ (before ++ link ++ after) ++ post0))
    ⟨[], some ⟨lvl, byteLen pre0, c1, [], some ⟨byteLen pre0 + byteLen before, tStr⟩⟩, c3,
      byteLen pre0 + byteLen before⟩
    ⟨byteLen pre0 + byteLen before, byteLen pre0 + byteLen before + byteLen link⟩
  by_cases hinv : is_empty_or_invisible tStr
  · have s4 : extractStep (String.mk (pre0 ++ (before ++ link ++ after) ++ post0))
        ⟨[], some ⟨lvl, byteLen pre0, c1, [], some ⟨byteLen pre0 + byteLen before, tStr⟩⟩, c3,
          byteLen pre0 + byteLen before⟩
        (.end_link,
          ⟨byteLen pre0 + byteLen before, byteLen pre0 + byteLen before + byteLen link⟩)
        = ⟨[], some ⟨lvl, byteLen pre0, c1,
            [⟨byteLen pre0 + byteLen before, byteLen pre0 + byteLen before + byteLen link⟩],
            none⟩, c4, byteLen pre0 + byteLen before⟩ := by
      unfold extractStep
      rw [h4]
      simp [stepCore, hinv]
    rw [s4]
    obtain ⟨c5, h5⟩ := advance_eq (String.mk (pre0 ++ (before ++ link ++ after) ++ post0))
      ⟨[], some ⟨lvl, byteLen pre0, c1,
          [⟨byteLen pre0 + byteLen before, byteLen pre0 + byteLen before + byteLen link⟩],
          none⟩, c4, byteLen pre0 + byteLen before⟩
      ⟨byteLen pre0, byteLen pre0 + byteLen (before ++ link ++ after)⟩
    have s5 : (extractStep (String.mk (pre0 ++ (before ++ link ++ after) ++ post0))
        ⟨[], some ⟨lvl, byteLen pre0, c1,
            [⟨byteLen pre0 + byteLen before, byteLen pre0 + byteLen before + byteLen link⟩],
            none⟩, c4, byteLen pre0 + byteLen before⟩
        (.end_heading,
          ⟨byteLen pre0, byteLen pre0 + byteLen (before ++ link ++ after)⟩)).headings
        = if (trimChars (before ++ after)).isEmpty then []
          else [⟨levelNum lvl, c1, String.mk (trimChars (before ++ after))⟩] := by
      unfold extractStep
      rw [h5]
      simp only [stepCore]
      rw [hslice]
      simp only [Option.getD_some]
      rw [buildHeadingText_single (byteLen pre0) before link after hlink]
      split <;> simp_all
    rw [s5, if_pos hinv]
    split <;> simp_all
  · have s4 : extractStep (String.mk (pre0 ++ (before ++ link ++ after) ++ post0))
        ⟨[], some ⟨lvl, byteLen pre0, c1, [], some ⟨byteLen pre0 + byteLen before, tStr⟩⟩, c3,
          byteLen pre0 + byteLen before⟩
        (.end_link,
          ⟨byteLen pre0 + byteLen before, byteLen pre0 + byteLen before + byteLen link⟩)
        = ⟨[], some ⟨lvl, byteLen pre0, c1, [], none⟩, c4,
            byteLen pre0 + byteLen before⟩ := by
      unfold extractStep
      rw [h4]
      simp [stepCore, hinv]
    rw [s4]
    obtain ⟨c5, h5⟩ := advance_eq (String.mk (pre0 ++ (before ++ link ++ after) ++ post0))
      ⟨[], some ⟨lvl, byteLen pre0, c1, [], none⟩, c4, byteLen pre0 + byteLen before⟩
      ⟨byteLen pre0, byteLen pre0 + byteLen (before ++ link ++ after)⟩
    have s5 : (extractStep (String.mk (pre0 ++ (before ++ link ++ after) ++ post0))
        ⟨[], some ⟨lvl, byteLen pre0, c1, [], none⟩, c4, byteLen pre0 + byteLen before⟩
        (.end_heading,
          ⟨byteLen pre0, byteLen pre0 + byteLen (before ++ link ++ after)⟩)).headings
        = if (trimChars (before ++ link ++ after)).isEmpty then []
          else [⟨levelNum lvl, c1, String.mk (trimChars (before ++ link ++ after))⟩] := by
      unfold extractStep
      rw [h5]
      simp only [stepCore]
      rw [hslice]
      simp only [Option.getD_some]
      rw [buildHeadingText_nil]
      split <;> simp_all
    rw [s5, if_neg hinv]
    split <;> simp_all

/-- C7 witness: the empty anchor link of `"## Ti [](#a)"` is stripped. -/
theorem extract_headings_invisible_link_dichotomy_witness :
    (extract_headings (String.mk (([] : List Char) ++ ("## Ti ".data ++ "[](#a)".data ++ ([] : List Char)) ++ ([] : List Char)))
        [(.start_heading .h2,
           ⟨byteLen ([] : List Char), byteLen ([] : List Char) + byteLen ("## Ti ".data ++ "[](#a)".data ++ ([] : List Char))⟩),
         (.start_link,
           ⟨byteLen ([] : List Char) + byteLen "## Ti ".data, byteLen ([] : List Char) + byteLen "## Ti ".data + byteLen "[](#a)".data⟩),
         (.text "",
           ⟨byteLen ([] : List Char) + byteLen "## Ti ".data, byteLen ([] : List Char) + byteLen "## Ti ".data + byteLen "[](#a)".data⟩),
         (.end_link,
           ⟨byteLen ([] : List Char) + byteLen "## Ti ".data, byteLen ([] : List Char) + byteLen "## Ti ".data + byteLen "[](#a)".data⟩),
         (.end_heading,
           ⟨byteLen ([] : List Char), byteLen ([] : List Char) + byteLen ("## Ti ".data ++ "[](#a)".data ++ ([] : List Char))⟩)]).map
      (fun h => h.text) = [("## Ti" : String)] :=
  (extract_headings_invisible_link_dichotomy .h2 "" [] "## Ti ".data "[](#a)".data [] []
    (by decide)).trans (by decide)

theorem renderTocChecked_isSome (headings : List Heading) (max_level : Nat) :
    (renderTocChecked headings max_level).isSome := by
  unfold renderTocChecked
  by_cases he : (headings.filter (fun h => decide (h.level ≤ max_level))).isEmpty
  · simp [he]
  · cases hl : (headings.filter (fun h => decide (h.level ≤ max_level))).getLast? with
    | none =>
      have hnil := List.getLast?_eq_none_iff.mp hl
      exact absurd (by simp [hnil] :
        (headings.filter (fun h => decide (h.level ≤ max_level))).isEmpty = true) he
    | some lastH => simp [he, hl]

theorem foldlM_selStepChecked_isSome (headings : List Heading) (budget : Nat)
    (levels : List Nat) :
    ∀ best, (levels.foldlM (selStepChecked headings budget) best).isSome := by
  induction levels with
  | nil => intro best; simp [List.foldlM]
  | cons L rest ih =>
    intro best
    rcases Option.isSome_iff_exists.mp (renderTocChecked_isSome headings L) with ⟨r, hr⟩
    simp only [List.foldlM, selStepChecked, hr]
    exact ih _

theorem findOptimalLevelChecked_isSome (headings : List Heading) (budget : Nat) :
    (findOptimalLevelChecked headings budget).isSome := by
  unfold findOptimalLevelChecked
  by_cases he : headings.isEmpty
  · simp [he]
  · simp only [he, Bool.false_eq_true, if_false]
    exact foldlM_selStepChecked_isSome headings budget _ none

theorem stepCore_last_pos (markdown : String) (s : ExtractState) (ev : MDEvent) (r : MRange) :
    (stepCore markdown s ev r).last_pos = s.last_pos := by
  cases ev <;> simp only [stepCore] <;> (repeat' split) <;> rfl

theorem advanceChecked_eq (markdown : String) (s : ExtractState) (r : MRange)
    (hlp : (dropBytes markdown.data s.last_pos).isSome)
    (hst : (dropBytes markdown.data r.start).isSome) :
    ∃ s1, advanceChecked markdown s r = some s1 ∧ s1.last_pos = s.last_pos.max r.start := by
  unfold advanceChecked
  by_cases h : s.last_pos < r.start
  · rw [if_pos h]
    rcases Option.isSome_iff_exists.mp (sliceBytes_isSome (Nat.le_of_lt h) hlp hst)
      with ⟨cs, hcs⟩
    rw [hcs]
    exact ⟨_, rfl, rfl⟩
  · rw [if_neg h]
    exact ⟨_, rfl, rfl⟩

theorem foldlM_stepChecked_isSome (markdown : String) (events : List (MDEvent × MRange)) :
    ∀ s : ExtractState, (dropBytes markdown.data s.last_pos).isSome →
      (∀ e ∈ events, (dropBytes markdown.data (e.2).start).isSome) →
      (events.foldlM (stepChecked markdown) s).isSome := by
  induction events with
  | nil => intro s _ _; simp [List.foldlM]
  | cons e rest ih =>
    intro s hs hev
    have hst : (dropBytes markdown.data (e.2).start).isSome := hev e (by simp)
    rcases advanceChecked_eq markdown s e.2 hs hst with ⟨s1, h1, hlp1⟩
    have hstep : stepChecked markdown s e = some (stepCore markdown s1 e.1 e.2) := by
      rw [stepChecked, h1]
      rfl
    rw [List.foldlM, hstep]
    show (Option.bind _ _).isSome
    rw [Option.bind]
    apply ih
    · rw [stepCore_last_pos, hlp1]
      rcases Nat.le_total s.last_pos (e.2).start with hle | hle
      · rw [show s.last_pos.max (e.2).start = (e.2).start from Nat.max_eq_right hle]
        exact hst
      · rw [show s.last_pos.max (e.2).start = s.last_pos from Nat.max_eq_left hle]
        exact hs
    · intro e2 he2
      exact hev e2 (by simp [he2])

/-- C9: totality / absence of panics of the whole pipeline, in the checked
model where every potentially panicking operation returns `none`: as long as
the external parser honours its contract of §6 — every event's range starts
on a byte position of the input reachable by whole characters — the checked
`generate_toc` returns `some` result on every input, configuration and size
hint; in particular invalid exclusion ranges inside headings are skipped,
never sliced.  (Termination is structural: every function of the model is
total by construction.) -/
theorem generateTocChecked_no_panic
    (parse : String → List (MDEvent × MRange)) (markdown : String)
    (total_bytes : Nat) (config : TocConfig)
    (hb : ∀ e ∈ parse markdown, (dropBytes markdown.data (e.2).start).isSome) :
    (generateTocChecked parse markdown total_bytes config).isSome := by
  unfold generateTocChecked
  by_cases hgate : total_bytes < config.full_content_threshold
  · simp [hgate]
  · rw [if_neg hgate]
    have hex : (extractHeadingsChecked markdown (parse markdown)).isSome := by
      unfold extractHeadingsChecked
      have := foldlM_stepChecked_isSome markdown (parse markdown)
        { headings := [], current_heading := none, current_line := 1, last_pos := 0 }
        (by simp [dropBytes_zero]) hb
      rcases Option.isSome_iff_exists.mp this with ⟨s, hsf⟩
      simp [hsf]
    rcases Option.isSome_iff_exists.mp hex with ⟨headings, hhead⟩
    rw [hhead]
    by_cases hemp : headings.isEmpty
    · simp [hemp]
    · simp only [hemp, Bool.false_eq_true, if_false]
      rcases Option.isSome_iff_exists.mp
        (findOptimalLevelChecked_isSome headings config.toc_budget) with ⟨res, hres⟩
      rw [hres]
      cases res with
      | none => simp
      | some p => obtain ⟨level, toc⟩ := p; simp

/-- C9 witness: a concrete run of the checked pipeline with a
contract-honouring event stream finishes without a panic. -/
theorem generateTocChecked_no_panic_witness :
    (generateTocChecked
      (fun _ => [(.start_heading .h1, ⟨0, 3⟩), (.end_heading, ⟨0, 3⟩)])
      "# T" 9000 TocConfig.default).isSome :=
  generateTocChecked_no_panic _ "# T" 9000 TocConfig.default (by decide)
